import Mathlib

/-!
Verification development for the kademlia-rs repository.

The Rust sources are shallowly embedded: node ids (20-byte arrays) become
lists of naturals, the k-bucket deque becomes a list ordered front-to-back,
the routing table becomes a list of buckets, and the blocking lookup loop
of Node::find becomes a fuel-indexed step function over an explicit
schedule of received datagrams.  Machine integers are modelled as Nat with
explicit truncation where the Rust code truncates.
-/

namespace Kademlia

/-- Model of a 160-bit node id: the 20 raw bytes, most significant first,
each a natural below 256.  Mirrors struct NodeId in node_id.rs. -/
abbrev NodeId := List Nat

/-- Socket addresses are opaque to all the verified code; an abstract token. -/
abbrev Addr := Nat

/-- Bytewise XOR of two ids, mirroring NodeId::xor in node_id.rs, which xors
the 20 byte pairs index by index.  The result is the Distance newtype. -/
def xorId (a b : NodeId) : NodeId :=
  List.zipWith (fun x y => x ^^^ y) a b

/-- Lexicographic byte comparison, mirroring impl Ord for Distance in
node_id.rs: walk the zipped byte pairs and return the first non-equal
comparison, Equal when all pairs agree.  On the equal-length byte arrays the
Rust code compares this agrees with full lexicographic order; the nil cases
are completed lexicographically so that the order is total and transitive on
all lists. -/
def cmpBytes : List Nat → List Nat → Ordering
  | [], [] => .eq
  | [], _ :: _ => .lt
  | _ :: _, [] => .gt
  | a :: as_, b :: bs =>
    if a < b then .lt else if b < a then .gt else cmpBytes as_ bs

/-- Distance order as a Prop: a is at most b when the comparison is not gt. -/
def distLe (a b : NodeId) : Prop := cmpBytes a b ≠ .gt

instance : DecidablePred (fun p : NodeId × NodeId => distLe p.1 p.2) :=
  fun _ => by unfold distLe; infer_instance

instance (a b : NodeId) : Decidable (distLe a b) := by
  unfold distLe; infer_instance

/-- The constant K from k_bucket.rs: bucket capacity, 6 in this repository. -/
def K : Nat := 6

/-- A k-bucket entry, mirroring struct KBucketEntry in k_bucket.rs. -/
structure KBucketEntry where
  node_id : NodeId
  ip : Addr
deriving DecidableEq, Repr

/-- A k-bucket is its deque of entries, front (least recently seen) first,
mirroring struct KBucket in k_bucket.rs. -/
abbrev KBucket := List KBucketEntry

/-- Ids of the entries of a list, in order. -/
def entryIds (l : List KBucketEntry) : List NodeId := l.map (fun e => e.node_id)

/-- Find the first entry whose id matches and remove it, returning the entry
and the remaining list.  This fuses the two steps of saw_node in k_bucket.rs:
entries.iter().position(|e| e.node_id == *id) followed by entries.remove(i),
which remove the first entry with the given id. -/
def extractById : List KBucketEntry → NodeId → Option (KBucketEntry × List KBucketEntry)
  | [], _ => none
  | e :: es, id =>
    if e.node_id = id then some (e, es)
    else (extractById es id).map (fun p => (p.1, e :: p.2))

/-- Model of KBucket::saw_node in k_bucket.rs.  If the id occurs, its entry
is removed (keeping its stored address) else a fresh entry is built from the
arguments; the entry is pushed to the back; if the bucket now exceeds K the
front entry is popped and returned as the evicted entry.  Returns the new
entry list together with the evicted entry. -/
def saw_node (entries : List KBucketEntry) (id : NodeId) (address : Addr) :
    List KBucketEntry × Option KBucketEntry :=
  let pulled : KBucketEntry × List KBucketEntry :=
    match extractById entries id with
    | some (e, rest) => (e, rest)
    | none => (⟨id, address⟩, entries)
  let entries' := pulled.2 ++ [pulled.1]
  if entries'.length > K then (entries'.tail, entries'.head?) else (entries', none)

/-- Model of KBucket::collect_into in k_bucket.rs: push every entry whose id
is not in seen onto the result vector, preserving bucket order. -/
def collect_into (entries : List KBucketEntry) (result : List KBucketEntry)
    (seen : List NodeId) : List KBucketEntry :=
  result ++ entries.filter (fun e => decide (e.node_id ∉ seen))

/-- The bit positions probed inside one byte by Distance::bucket_index in
node_id.rs: the mask starts at 1 <<< 7 and is shifted right until it is 0. -/
def bitList : List Nat := [7, 6, 5, 4, 3, 2, 1, 0]

/-- Inner loop of Distance::bucket_index in node_id.rs over one byte: test
the bit under the mask, return idx on a hit, otherwise decrement idx (the
Rust code guards the decrement by idx being nonzero, which on Nat is the
truncated subtraction) and move to the next mask.  Returns the hit (if any)
together with the running idx. -/
def scanBits (byte : Nat) (idx : Nat) : List Nat → Option Nat × Nat
  | [] => (none, idx)
  | j :: js =>
    if byte.testBit j then (some idx, idx)
    else scanBits byte (if idx ≠ 0 then idx - 1 else idx) js

/-- Mask-relative form of the inner scan: the number of failed probes before
the first set bit, independent of the running idx. -/
def scanRel (byte : Nat) : List Nat → Option Nat
  | [] => none
  | j :: js =>
    if byte.testBit j then some 0 else (scanRel byte js).map (fun t => t + 1)

/-- Outer loop of Distance::bucket_index in node_id.rs: scan the bytes, most
significant first, threading the running idx. -/
def bucketIndexAux : List Nat → Nat → Nat
  | [], idx => idx
  | b :: bs, idx =>
    match scanBits b idx bitList with
    | (some r, _) => r
    | (none, idx') => bucketIndexAux bs idx'

/-- Model of Distance::bucket_index in node_id.rs: the idx counter starts at
159 and the 20 bytes are scanned most significant first. -/
def bucket_index (d : NodeId) : Nat := bucketIndexAux d 159

/-- Position of the highest set bit of a byte (0 for the zero byte). -/
def msb8 (b : Nat) : Nat :=
  if 128 ≤ b then 7
  else if 64 ≤ b then 6
  else if 32 ≤ b then 5
  else if 16 ≤ b then 4
  else if 8 ≤ b then 3
  else if 4 ≤ b then 2
  else if 2 ≤ b then 1
  else 0

/-- Value of a byte string read as a big-endian unsigned integer; bit 7 of
byte 0 of a 20-byte id is bit 159 of this value. -/
def beVal (bs : List Nat) : Nat := bs.foldl (fun a b => a * 256 + b) 0

/-- Lowercase hex digit of a nibble, as the LowerHex formatting used by impl
Display for NodeId in node_id.rs emits it: the digit characters (code 48
upward) below ten, the letters from a (code 97) upward otherwise. -/
def hexChar (n : Nat) : Char :=
  if n < 10 then Char.ofNat (48 + n) else Char.ofNat (87 + n)

/-- Body of impl Display for NodeId in node_id.rs: skip leading zero bytes
entirely; on the first non-zero byte print the upper nibble only when it is
non-zero; from then on print both nibbles of every byte. -/
def toHexAux : List Nat → Bool → List Char
  | [], _ => []
  | byte :: rest, allZeros =>
    if allZeros ∧ byte = 0 then toHexAux rest allZeros
    else
      let upper := (byte &&& 0xf0) >>> 4
      let head := if ¬allZeros ∨ (allZeros ∧ upper ≠ 0) then [hexChar upper] else []
      head ++ [hexChar (byte &&& 0x0f)] ++ toHexAux rest false

/-- Hex rendering of an id (the to_hex direction of the codec). -/
def toHexChars (id : NodeId) : List Char := toHexAux id true

/-- Model of char::to_digit(16) as used by NodeId::from_hex_string: decimal
digits (codes 48-57), lowercase a-f (codes 97-102) and uppercase A-F (codes
65-70) are accepted; everything else fails. -/
def hexVal (c : Char) : Option Nat :=
  if 48 ≤ c.toNat ∧ c.toNat ≤ 57 then some (c.toNat - 48)
  else if 97 ≤ c.toNat ∧ c.toNat ≤ 102 then some (c.toNat - 87)
  else if 65 ≤ c.toNat ∧ c.toNat ≤ 70 then some (c.toNat - 55)
  else none

/-- Digit-filling loop of NodeId::from_hex_string in node_id.rs.  The input
is the reversed character list; slot k (k = 2i + j of the Rust loops over
i in 0..20 and j in 0..2) ors the digit into byte 20 - i - 1 shifted by
j * 4 bits.  Running out of characters mid-loop returns the id built so far;
a non-hex character fails; a character left after 40 slots fails. -/
def fillHex : List Char → Nat → List Nat → Option (List Nat)
  | [], _, id => some id
  | c :: cs, k, id =>
    if 40 ≤ k then none
    else
      match hexVal c with
      | none => none
      | some d =>
        fillHex cs (k + 1)
          (id.set (20 - k / 2 - 1) (id.getD (20 - k / 2 - 1) 0 ||| (d <<< (k % 2 * 4))))

/-- Model of NodeId::from_hex_string in node_id.rs: the empty string fails,
otherwise the characters are consumed in reverse into an all-zero id. -/
def from_hex_string (s : List Char) : Option NodeId :=
  if s = [] then none else fillHex s.reverse 0 (List.replicate 20 0)

/-- Byte-packing step of storage::hash in storage.rs.  The SipHash finish
value (computed by the standard library hasher, outside this repository) is
abstracted as the input h; the loop writes byte i of an all-zero 20-byte key
to ((h & (0xff << i)) >> i) as u8 for i in 0..8 and leaves all other bytes
untouched.  storage::hash val = storage_hash_bytes (sip val), so every
property proved for all h holds for every input byte string. -/
def storage_hash_bytes (h : Nat) : List Nat :=
  (List.range 8).foldl
    (fun bytes i => bytes.set i (((h &&& (0xff <<< i)) >>> i) % 256))
    (List.replicate 20 0)

deriving instance DecidableEq for Except

/-- Request kinds of rpc.rs. -/
inductive RequestKind where
  | ping
  | findNode (id : NodeId)
  | store (key : NodeId) (val : List Nat)
  | findValue (key : NodeId)
deriving DecidableEq

/-- FIND_VALUE reply payload of rpc.rs. -/
inductive FindValueResponse where
  | value (key : NodeId) (v : List Nat)
  | closerNodes (nodes : List KBucketEntry)
deriving DecidableEq

/-- Response kinds of rpc.rs. -/
inductive ResponseKind where
  | pong
  | findNode (nodes : List KBucketEntry)
  | findValue (r : FindValueResponse)
deriving DecidableEq

/-- Message kinds of rpc.rs. -/
inductive MessageKind where
  | request (r : RequestKind)
  | response (r : ResponseKind)
deriving DecidableEq

/-- One receive attempt during Node::find: either the I/O layer fails (a
recv_from or decode error inside recv_message) or a datagram arrives with a
sender id, a source address and a message kind. -/
inductive RecvEvent where
  | ioError
  | msg (sender : NodeId) (source : Addr) (kind : MessageKind)
deriving DecidableEq

/-- The state of a Node from node.rs that the verified claims depend on:
its id, its 160 k-buckets and its key-value store.  The socket, handler list
and RNG carry no routing state. -/
structure Node where
  id : NodeId
  buckets : List KBucket
  store : List (NodeId × List Nat)
deriving DecidableEq

/-- HashMap::get on the store model. -/
def storeGet (store : List (NodeId × List Nat)) (k : NodeId) : Option (List Nat) :=
  (store.find? (fun p => decide (p.1 = k))).map (fun p => p.2)

/-- HashMap::insert on the store model (overwrite semantics). -/
def storeInsert (store : List (NodeId × List Nat)) (k : NodeId) (v : List Nat) :
    List (NodeId × List Nat) :=
  (k, v) :: store.filter (fun p => decide (p.1 ≠ k))

/-- Model of Node::note_node in node.rs: compute the distance from the owner
id, and call saw_node on the bucket at its bucket_index.  The evicted entry
is discarded.  There is no owner-id check in the source. -/
def note_node (n : Node) (id : NodeId) (address : Addr) : Node :=
  let distance := xorId n.id id
  let idx := bucket_index distance
  { n with buckets := n.buckets.set idx (saw_node (n.buckets.getD idx []) id address).1 }

/-- Adjacent-bucket loop of Node::find_k_known_nodes_closer_to_not_in in
node.rs: while fewer than K entries are gathered, collect from buckets
index - delta and index + delta when in range, and stop when neither side is
in range.  The loop is driven by structural fuel; the entry point passes
buckets.length + index + 1, beyond the largest delta the source loop can
reach, and gatherLoop_fuel_stable shows any such fuel gives the same result,
so the model agrees with the unbounded source loop. -/
def gatherLoop (buckets : List KBucket) (seen : List NodeId) (index : Nat) :
    Nat → Nat → List KBucketEntry → List KBucketEntry
  | 0, _, ret => ret
  | fuel + 1, delta, ret =>
    if ret.length < K then
      let ret1 :=
        if delta ≤ index then collect_into (buckets.getD (index - delta) []) ret seen else ret
      let ret2 :=
        if index + delta < buckets.length then
          collect_into (buckets.getD (index + delta) []) ret1 seen
        else ret1
      if delta ≤ index ∨ index + delta < buckets.length then
        gatherLoop buckets seen index fuel (delta + 1) ret2
      else ret2
    else ret

/-- Sort key relation of the ret.sort_by_key call in
find_k_known_nodes_closer_to_not_in: compare entries by the XOR distance of
their id to the OWNER id (self.id in the source), not to the target. -/
def entryLe (owner : NodeId) (a b : KBucketEntry) : Prop :=
  distLe (xorId owner a.node_id) (xorId owner b.node_id)

instance (owner : NodeId) : DecidableRel (entryLe owner) := fun _ _ => by
  unfold entryLe distLe; infer_instance

/-- Model of Node::find_k_known_nodes_closer_to_not_in in node.rs: collect
the home bucket, spread over adjacent buckets, stable-sort by XOR distance
to the owner id, truncate to K.  Rust sort_by_key is a stable sort; any two
stable sorts under the same total preorder agree, and List.insertionSort is
stable, so it models the Rust sort faithfully. -/
def find_k_known_nodes_closer_to_not_in (n : Node) (id : NodeId) (seen : List NodeId) :
    List KBucketEntry :=
  let distance := xorId n.id id
  let index := bucket_index distance
  let ret := collect_into (n.buckets.getD index []) [] seen
  let gathered := gatherLoop n.buckets seen index (n.buckets.length + index + 1) 1 ret
  (List.insertionSort (entryLe n.id) gathered).take K

/-- State effect of Node::handle_request in node.rs.  Ping, FindNode and
FindValue only send reply messages (FindNode with the owner id returns early
without a reply); none of them changes the node state.  Store inserts into
the local store. -/
def handle_request (n : Node) (request : RequestKind) : Node :=
  match request with
  | .ping => n
  | .findNode _ => n
  | .store key val => { n with store := storeInsert n.store key val }
  | .findValue _ => n

/-- HashSet::insert folded over a list of ids (the seen-set updates of the
send loop in Node::find); only membership matters. -/
def insertAll (seen : List NodeId) (ids : List NodeId) : List NodeId :=
  ids.foldl (fun s x => if x ∈ s then s else x :: s) seen

/-- One run of the loop of Node::find in node.rs, driven by a deterministic
schedule of receive outcomes (sched pos is what the pos-th blocking
recv_message yields).  fuel bounds the number of loop iterations; none means
the loop was still running after fuel iterations.  On success the pair holds
the io::Result of find and the read timeout left on the socket: the loop
entered with the timeout cleared (find sets it to None before the loop), the
Ok exits restore oldT, and the error exit propagates with the timeout still
cleared because the try operator on recv_message returns before any restore. -/
def findLoop : Nat → NodeId → Node → List NodeId → List KBucketEntry → Option Nat →
    (Nat → RecvEvent) → Nat → Option (Except Unit (Option (List Nat)) × Option Nat)
  | 0, _, _, _, _, _, _, _ => none
  | fuel + 1, k, n, seen, carry, oldT, sched, pos =>
    let nodes := find_k_known_nodes_closer_to_not_in n k seen
    if nodes = [] ∧ carry = [] then some (.ok none, oldT)
    else
      let seen' := insertAll seen (entryIds (nodes ++ carry))
      match sched pos with
      | .ioError => some (.error (), none)
      | .msg sender source kind =>
        let n' := note_node n sender source
        match kind with
        | .request r => findLoop fuel k (handle_request n' r) seen' [] oldT sched (pos + 1)
        | .response (.findValue (.value key v)) =>
          if key = k then some (.ok (some v), oldT)
          else findLoop fuel k n' seen' [] oldT sched (pos + 1)
        | .response (.findValue (.closerNodes ns)) =>
          findLoop fuel k n' seen' ns oldT sched (pos + 1)
        | .response _ => findLoop fuel k n' seen' [] oldT sched (pos + 1)

/-- Model of Node::find in node.rs: a local store hit returns immediately
with the socket timeout untouched; otherwise the lookup loop runs with an
empty seen set and no carryover. -/
def find (fuel : Nat) (n : Node) (k : NodeId) (oldT : Option Nat)
    (sched : Nat → RecvEvent) (pos : Nat) :
    Option (Except Unit (Option (List Nat)) × Option Nat) :=
  match storeGet n.store k with
  | some v => some (.ok (some v), oldT)
  | none => findLoop fuel k n [] [] oldT sched pos

/-- All ids stored anywhere in the routing table. -/
def tableIds (n : Node) : List NodeId := (n.buckets.map entryIds).flatten

/-- Ids carried by the CloserNodes payload of a message, if any. -/
def kindCloserIds : MessageKind → List NodeId
  | .response (.findValue (.closerNodes ns)) => entryIds ns
  | _ => []

/-- All ids a receive event can teach the node: the sender id plus any
CloserNodes payload ids. -/
def eventIds : RecvEvent → List NodeId
  | .ioError => []
  | .msg sender _ kind => sender :: kindCloserIds kind

/-- Ids carried by the events of the schedule in positions pos..j-1. -/
def rangeIds (sched : Nat → RecvEvent) (pos j : Nat) : List NodeId :=
  ((List.range (j - pos)).map (fun t => eventIds (sched (pos + t)))).flatten

/-- The schedule always has fresh candidates: every non-empty CloserNodes
reply at position j carries at least one id outside the base set B, outside
everything any earlier event carried, and different from the sender of the
reply itself. -/
def Fresh (sched : Nat → RecvEvent) (pos : Nat) (B : List NodeId) : Prop :=
  ∀ j, pos ≤ j → ∀ s a ns,
    sched j = .msg s a (.response (.findValue (.closerNodes ns))) →
    ns ≠ [] → ∃ x ∈ entryIds ns, x ∉ B ∧ x ∉ rangeIds sched pos j ∧ x ≠ s

/-- Every id any event of the schedule carries lies in the universe U of
known peers. -/
def EventsIn (sched : Nat → RecvEvent) (pos : Nat) (U : List NodeId) : Prop :=
  ∀ j, pos ≤ j → ∀ x ∈ eventIds (sched j), x ∈ U

/-- The all-zero id. -/
def zeroId : NodeId := List.replicate 20 0

/-- Id whose last byte is v and all other bytes are zero. -/
def mkId (v : Nat) : NodeId := List.replicate 19 0 ++ [v]

/-- Concrete ids and entries used in the concrete scenarios below. -/
def aId : NodeId := mkId 2

def bId : NodeId := mkId 3

def tId : NodeId := mkId 1

def entryA : KBucketEntry := ⟨aId, 100⟩

def entryB : KBucketEntry := ⟨bId, 101⟩

/-- Routing table of a fresh node: 160 empty buckets. -/
def emptyBuckets : List KBucket := List.replicate 160 []

/-- Node owned by the zero id knowing exactly peers A (distance 2) and B
(distance 3), both living in bucket 1. -/
def cNodeAB : Node := ⟨zeroId, emptyBuckets.set 1 [entryA, entryB], []⟩

/-- Node owned by the zero id knowing exactly peer A. -/
def cNodeA : Node := ⟨zeroId, emptyBuckets.set 1 [entryA], []⟩

/-- Adversarial schedule: peer A always answers with CloserNodes [A]. -/
def schedAdv : Nat → RecvEvent :=
  fun _ => .msg aId 100 (.response (.findValue (.closerNodes [entryA])))

/-- Peer A always answers Pong (no CloserNodes ever). -/
def schedPong : Nat → RecvEvent := fun _ => .msg aId 100 (.response .pong)

/-- The first receive fails with an I/O error. -/
def schedErr : Nat → RecvEvent := fun _ => .ioError

/-- Peer A sends a Ping request instead of answering. -/
def schedPing : Nat → RecvEvent := fun _ => .msg aId 100 (.request .ping)

theorem cmpBytes_swap : ∀ a b : List Nat, cmpBytes a b = (cmpBytes b a).swap := by
  intro a
  induction a with
  | nil => intro b; cases b <;> simp [cmpBytes, Ordering.swap]
  | cons x xs ih =>
    intro b
    cases b with
    | nil => simp [cmpBytes, Ordering.swap]
    | cons y ys =>
      simp only [cmpBytes]
      by_cases h1 : x < y
      · have h2 : ¬ y < x := by omega
        simp [h1, h2, Ordering.swap]
      · by_cases h2 : y < x
        · simp [h1, h2, Ordering.swap]
        · simp [h1, h2, ih ys]

theorem cmpBytes_le_trans : ∀ a b c : List Nat,
    cmpBytes a b ≠ .gt → cmpBytes b c ≠ .gt → cmpBytes a c ≠ .gt := by
  intro a
  induction a with
  | nil =>
    intro b c _ _
    cases c <;> simp [cmpBytes]
  | cons x xs ih =>
    intro b c hab hbc
    cases b with
    | nil => exact absurd (rfl : cmpBytes (x :: xs) ([] : List Nat) = .gt) hab
    | cons y ys =>
      cases c with
      | nil => exact absurd (rfl : cmpBytes (y :: ys) ([] : List Nat) = .gt) hbc
      | cons z zs =>
        have hxy : x < y ∨ (¬ x < y ∧ ¬ y < x ∧ cmpBytes xs ys ≠ .gt) := by
          by_cases h : x < y
          · exact .inl h
          · by_cases h2 : y < x
            · simp [cmpBytes, h, h2] at hab
            · exact .inr ⟨h, h2, by simpa [cmpBytes, h, h2] using hab⟩
        have hyz : y < z ∨ (¬ y < z ∧ ¬ z < y ∧ cmpBytes ys zs ≠ .gt) := by
          by_cases h : y < z
          · exact .inl h
          · by_cases h2 : z < y
            · simp [cmpBytes, h, h2] at hbc
            · exact .inr ⟨h, h2, by simpa [cmpBytes, h, h2] using hbc⟩
        by_cases hxz : x < z
        · simp [cmpBytes, hxz]
        · by_cases hzx : z < x
          · rcases hxy with h | ⟨h1, h2, _⟩ <;> rcases hyz with h' | ⟨h1', h2', _⟩ <;> omega
          · have hrec : cmpBytes xs zs ≠ .gt := by
              rcases hxy with h | ⟨h1, h2, hr⟩ <;> rcases hyz with h' | ⟨h1', h2', hr'⟩
              · omega
              · omega
              · omega
              · have : xs = xs := rfl
                exact ih ys zs hr hr'
            simpa [cmpBytes, hxz, hzx] using hrec

instance (owner : NodeId) : IsTotal KBucketEntry (entryLe owner) where
  total a b := by
    unfold entryLe distLe
    rcases h : cmpBytes (xorId owner a.node_id) (xorId owner b.node_id) with _ | _ | _
    · exact .inl (by simp [h])
    · exact .inl (by simp [h])
    · refine .inr ?_
      have := cmpBytes_swap (xorId owner b.node_id) (xorId owner a.node_id)
      rw [h] at this
      simp [this, Ordering.swap]

instance (owner : NodeId) : IsTrans KBucketEntry (entryLe owner) where
  trans a b c hab hbc := cmpBytes_le_trans _ _ _ hab hbc

theorem dec_clamp (idx : Nat) : (if idx ≠ 0 then idx - 1 else idx) = idx - 1 := by
  cases idx <;> simp

theorem scanBits_eq_scanRel (b : Nat) : ∀ (js : List Nat) (idx : Nat),
    scanBits b idx js =
      (match scanRel b js with
       | some t => (some (idx - t), idx - t)
       | none => (none, idx - js.length)) := by
  intro js
  induction js with
  | nil => intro idx; simp [scanBits, scanRel]
  | cons j js ih =>
    intro idx
    by_cases h : b.testBit j
    · simp [scanBits, scanRel, h]
    · simp only [scanBits, scanRel, h, if_neg, Bool.false_eq_true, ite_false, dec_clamp]
      rw [ih (idx - 1)]
      cases hr : scanRel b js with
      | none =>
        simp only [List.length_cons, Nat.sub_sub]
        have : idx - (1 + js.length) = idx - (js.length + 1) := by omega
        simp [this]
      | some t =>
        simp only [Option.map_some]
        have : idx - 1 - t = idx - (t + 1) := by omega
        simp [this]

theorem scanRel_zero_byte : scanRel 0 bitList = none := by decide

set_option maxRecDepth 4096 in
theorem scanRel_pos_byte : ∀ b, b < 256 → b ≠ 0 → scanRel b bitList = some (7 - msb8 b) := by
  decide

set_option maxRecDepth 4096 in
theorem msb8_spec : ∀ b, b < 256 → b ≠ 0 →
    2 ^ msb8 b ≤ b ∧ b < 2 ^ (msb8 b + 1) ∧ msb8 b ≤ 7 := by
  decide

theorem beVal_foldl (bs : List Nat) : ∀ a : Nat,
    bs.foldl (fun a b => a * 256 + b) a = a * 256 ^ bs.length + beVal bs := by
  induction bs with
  | nil => intro a; simp [beVal]
  | cons b bs ih =>
    intro a
    have hb : beVal (b :: bs) = b * 256 ^ bs.length + beVal bs := by
      have hdef : beVal (b :: bs) = List.foldl (fun a b => a * 256 + b) (0 * 256 + b) bs := rfl
      rw [hdef, ih (0 * 256 + b)]
      ring
    simp only [List.foldl_cons, List.length_cons]
    rw [ih (a * 256 + b), hb]
    ring

theorem beVal_cons (b : Nat) (bs : List Nat) :
    beVal (b :: bs) = b * 256 ^ bs.length + beVal bs := by
  simpa [beVal] using beVal_foldl bs b

theorem beVal_lt (bs : List Nat) (h : ∀ b ∈ bs, b < 256) :
    beVal bs < 256 ^ bs.length := by
  induction bs with
  | nil => simp [beVal]
  | cons b bs ih =>
    have hb : b < 256 := h b (by simp)
    have hr : beVal bs < 256 ^ bs.length := ih (fun x hx => h x (by simp [hx]))
    rw [beVal_cons, List.length_cons, pow_succ]
    calc b * 256 ^ bs.length + beVal bs
        < b * 256 ^ bs.length + 256 ^ bs.length := by omega
      _ = (b + 1) * 256 ^ bs.length := by ring
      _ ≤ 256 * 256 ^ bs.length := by
          exact Nat.mul_le_mul_right _ (by omega)
      _ = 256 ^ bs.length * 256 := by ring

theorem pow256_eq (n : Nat) : (256 : Nat) ^ n = 2 ^ (8 * n) := by
  have : (256 : Nat) = 2 ^ 8 := by norm_num
  rw [this, ← pow_mul]

/-- Full characterisation of the byte scan against the big-endian value. -/
theorem bucketIndexAux_spec : ∀ bs : List Nat, (∀ b ∈ bs, b < 256) →
    (beVal bs = 0 → bucketIndexAux bs (8 * bs.length - 1) = 0) ∧
    (beVal bs ≠ 0 →
      2 ^ bucketIndexAux bs (8 * bs.length - 1) ≤ beVal bs ∧
      beVal bs < 2 ^ (bucketIndexAux bs (8 * bs.length - 1) + 1)) := by
  intro bs
  induction bs with
  | nil =>
    intro _
    constructor
    · intro _; simp [bucketIndexAux]
    · intro h; exact absurd (by simp [beVal]) h
  | cons b bs ih =>
    intro h
    have hb : b < 256 := h b (by simp)
    have hrec := ih (fun x hx => h x (by simp [hx]))
    have hidx : 8 * (b :: bs).length - 1 = 8 * bs.length + 7 := by
      simp [List.length_cons]; omega
    by_cases hb0 : b = 0
    · subst hb0
      have hstep : bucketIndexAux (0 :: bs) (8 * bs.length + 7)
          = bucketIndexAux bs (8 * bs.length - 1) := by
        have := scanBits_eq_scanRel 0 bitList (8 * bs.length + 7)
        rw [scanRel_zero_byte] at this
        simp only [bucketIndexAux, this]
        have : 8 * bs.length + 7 - bitList.length = 8 * bs.length - 1 := by
          have hbl : bitList.length = 8 := rfl
          rw [hbl]; omega
        rw [this]
      rw [hidx, hstep]
      have hv : beVal (0 :: bs) = beVal bs := by simp [beVal_cons]
      rw [hv]
      exact hrec
    · have hscan := scanBits_eq_scanRel b bitList (8 * bs.length + 7)
      rw [scanRel_pos_byte b hb hb0] at hscan
      obtain ⟨hle, hlt, hm7⟩ := msb8_spec b hb hb0
      have hres : bucketIndexAux (b :: bs) (8 * bs.length + 7)
          = 8 * bs.length + msb8 b := by
        simp only [bucketIndexAux, hscan]
        omega
      rw [hidx, hres]
      have hvcons : beVal (b :: bs) = b * 2 ^ (8 * bs.length) + beVal bs := by
        rw [beVal_cons, pow256_eq]
      have hrlt : beVal bs < 2 ^ (8 * bs.length) := by
        have := beVal_lt bs (fun x hx => h x (by simp [hx]))
        rwa [pow256_eq] at this
      constructor
      · intro h0
        exfalso
        have : 1 ≤ b := Nat.one_le_iff_ne_zero.mpr hb0
        have : 1 * 2 ^ (8 * bs.length) ≤ b * 2 ^ (8 * bs.length) :=
          Nat.mul_le_mul_right _ this
        have hpos : 0 < 2 ^ (8 * bs.length) := Nat.pos_pow_of_pos _ (by omega)
        omega
      · intro _
        constructor
        · rw [hvcons, pow_add]
          calc 2 ^ (8 * bs.length) * 2 ^ msb8 b
              ≤ 2 ^ (8 * bs.length) * b := Nat.mul_le_mul_left _ hle
            _ = b * 2 ^ (8 * bs.length) := by ring
            _ ≤ b * 2 ^ (8 * bs.length) + beVal bs := Nat.le_add_right _ _
        · rw [hvcons]
          have h1 : b * 2 ^ (8 * bs.length) + beVal bs
              < (b + 1) * 2 ^ (8 * bs.length) := by
            have : (b + 1) * 2 ^ (8 * bs.length)
                = b * 2 ^ (8 * bs.length) + 2 ^ (8 * bs.length) := by ring
            omega
          have h2 : (b + 1) * 2 ^ (8 * bs.length)
              ≤ 2 ^ (msb8 b + 1) * 2 ^ (8 * bs.length) :=
            Nat.mul_le_mul_right _ (by omega)
          calc b * 2 ^ (8 * bs.length) + beVal bs
              < (b + 1) * 2 ^ (8 * bs.length) := h1
            _ ≤ 2 ^ (msb8 b + 1) * 2 ^ (8 * bs.length) := h2
            _ = 2 ^ (8 * bs.length + msb8 b + 1) := by
                rw [← pow_add]; ring_nf

/-- C8: Distance::bucket_index always returns a number in [0, 159]; for a
non-zero distance it is the index of the most significant set bit of the
bytes read as a big-endian integer (so bit 7 of byte 0 is bit 159, the MSB),
and for the zero distance it returns 0. -/
theorem bucket_index_range_msb_zero (d : NodeId) (hlen : d.length = 20)
    (hb : ∀ b ∈ d, b < 256) :
    bucket_index d ≤ 159 ∧
    (beVal d ≠ 0 → Nat.testBit (beVal d) (bucket_index d) = true ∧
      ∀ q, bucket_index d < q → Nat.testBit (beVal d) q = false) ∧
    (beVal d = 0 → bucket_index d = 0) := by
  have hb159 : bucket_index d = bucketIndexAux d (8 * d.length - 1) := by
    rw [hlen]; rfl
  obtain ⟨hzero, hpos⟩ := bucketIndexAux_spec d hb
  by_cases h0 : beVal d = 0
  · have hz := hzero h0
    rw [hb159]
    exact ⟨by omega, fun hne => absurd h0 hne, fun _ => hz⟩
  · obtain ⟨hle, hlt⟩ := hpos h0
    rw [hb159]
    rw [← hb159] at hle hlt
    have hvlt : beVal d < 2 ^ 160 := by
      have := beVal_lt d hb
      rw [pow256_eq, hlen] at this
      simpa using this
    rw [← hb159]
    have hple : bucket_index d ≤ 159 := by
      have h2 : 2 ^ bucket_index d < 2 ^ 160 := lt_of_le_of_lt hle hvlt
      have := (Nat.pow_lt_pow_iff_right (by omega : 1 < 2)).mp h2
      omega
    refine ⟨hple, fun _ => ⟨?_, ?_⟩, fun hz => absurd hz h0⟩
    · have hppos : 0 < 2 ^ bucket_index d := Nat.pos_pow_of_pos _ (by omega)
      have h1 : 1 ≤ beVal d / 2 ^ bucket_index d :=
        (Nat.le_div_iff_mul_le hppos).mpr (by simpa using hle)
      have h2 : beVal d / 2 ^ bucket_index d < 2 := by
        rw [Nat.div_lt_iff_lt_mul hppos]
        calc beVal d < 2 ^ (bucket_index d + 1) := hlt
          _ = 2 ^ bucket_index d * 2 := by rw [pow_succ]
          _ = 2 * 2 ^ bucket_index d := by ring
      have hdiv : beVal d / 2 ^ bucket_index d = 1 := by omega
      rw [Nat.testBit_to_div_mod]
      simp [hdiv]
    · intro q hq
      apply Nat.testBit_eq_false_of_lt
      calc beVal d < 2 ^ (bucket_index d + 1) := hlt
        _ ≤ 2 ^ q := Nat.pow_le_pow_right (by omega) (by omega)

/-- Witness for bucket_index_range_msb_zero at a concrete distance with a
single non-zero byte 5 at index 17 (value 5 * 65536, MSB index 18). -/
theorem bucket_index_range_msb_zero_witness :
    (List.replicate 17 (0 : Nat) ++ [5] ++ List.replicate 2 0).length = 20 ∧
    (∀ b ∈ List.replicate 17 (0 : Nat) ++ [5] ++ List.replicate 2 0, b < 256) ∧
    (bucket_index (List.replicate 17 (0 : Nat) ++ [5] ++ List.replicate 2 0) ≤ 159 ∧
      (beVal (List.replicate 17 (0 : Nat) ++ [5] ++ List.replicate 2 0) ≠ 0 →
        Nat.testBit (beVal (List.replicate 17 (0 : Nat) ++ [5] ++ List.replicate 2 0))
          (bucket_index (List.replicate 17 (0 : Nat) ++ [5] ++ List.replicate 2 0)) = true ∧
        ∀ q, bucket_index (List.replicate 17 (0 : Nat) ++ [5] ++ List.replicate 2 0) < q →
          Nat.testBit (beVal (List.replicate 17 (0 : Nat) ++ [5] ++ List.replicate 2 0)) q = false) ∧
      (beVal (List.replicate 17 (0 : Nat) ++ [5] ++ List.replicate 2 0) = 0 →
        bucket_index (List.replicate 17 (0 : Nat) ++ [5] ++ List.replicate 2 0) = 0)) :=
  ⟨by decide, by decide, bucket_index_range_msb_zero _ (by decide) (by decide)⟩

theorem extractById_eq_none (b : List KBucketEntry) (id : NodeId) :
    extractById b id = none ↔ id ∉ entryIds b := by
  induction b with
  | nil => simp [extractById, entryIds]
  | cons e es ih =>
    by_cases h : e.node_id = id
    · simp [extractById, h, entryIds]
    · simp only [extractById, h, ite_false, Option.map_eq_none', entryIds,
        List.map_cons, List.mem_cons]
      constructor
      · intro hnone hmem
        rcases hmem with heq | hmem
        · exact h heq.symm
        · exact (ih.mp hnone) hmem
      · intro hmem
        exact ih.mpr (fun hx => hmem (Or.inr hx))

theorem extractById_some_decomp : ∀ (b : List KBucketEntry) (id : NodeId)
    (e : KBucketEntry) (rest : List KBucketEntry),
    extractById b id = some (e, rest) →
    e.node_id = id ∧ ∃ l1 l2, b = l1 ++ e :: l2 ∧ rest = l1 ++ l2 ∧ id ∉ entryIds l1 := by
  intro b
  induction b with
  | nil => intro id e rest h; simp [extractById] at h
  | cons f fs ih =>
    intro id e rest h
    by_cases hf : f.node_id = id
    · simp only [extractById, hf, ite_true, Option.some_inj] at h
      injection h with h1 h2
      subst h1
      subst h2
      exact ⟨hf, [], fs, rfl, rfl, by simp [entryIds]⟩
    · simp only [extractById, hf, ite_false] at h
      cases hx : extractById fs id with
      | none => rw [hx] at h; simp at h
      | some p =>
        obtain ⟨e', rest'⟩ := p
        rw [hx] at h
        rw [Option.map_some'] at h
        rw [Option.some_inj] at h
        injection h with h1 h2
        subst h1
        subst h2
        obtain ⟨hid, l1, l2, hb, hr, hnotin⟩ := ih id e' rest' hx
        refine ⟨hid, f :: l1, l2, by simp [hb], by simp [hr], ?_⟩
        simp only [entryIds, List.map_cons, List.mem_cons]
        rintro (hfe | hmem)
        · exact hf hfe.symm
        · exact hnotin hmem

theorem saw_node_none_case (b : List KBucketEntry) (id : NodeId) (addr : Addr)
    (h : extractById b id = none) :
    saw_node b id addr =
      if (b ++ [(⟨id, addr⟩ : KBucketEntry)]).length > K
      then ((b ++ [(⟨id, addr⟩ : KBucketEntry)]).tail,
            (b ++ [(⟨id, addr⟩ : KBucketEntry)]).head?)
      else (b ++ [(⟨id, addr⟩ : KBucketEntry)], none) := by
  unfold saw_node
  rw [h]

theorem saw_node_some_case (b : List KBucketEntry) (id : NodeId) (addr : Addr)
    (e : KBucketEntry) (rest : List KBucketEntry)
    (h : extractById b id = some (e, rest)) :
    saw_node b id addr =
      if (rest ++ [e]).length > K
      then ((rest ++ [e]).tail, (rest ++ [e]).head?)
      else (rest ++ [e], none) := by
  unfold saw_node
  rw [h]

/-- C7: on a bucket holding at most K entries with no duplicate ids,
saw_node leaves the given id occurring exactly once, at the back; the new
bucket holds at most K entries; and the returned evicted entry is the old
front entry exactly when the bucket held K entries, none of them with the
given id, and none otherwise. -/
theorem saw_node_spec (b : List KBucketEntry) (id : NodeId) (addr : Addr)
    (hlen : b.length ≤ K) (hnd : (entryIds b).Nodup) :
    ((entryIds (saw_node b id addr).1).count id = 1) ∧
    (∃ e, (saw_node b id addr).1.getLast? = some e ∧ e.node_id = id) ∧
    ((saw_node b id addr).1.length ≤ K) ∧
    ((saw_node b id addr).2 = if b.length = K ∧ id ∉ entryIds b then b.head? else none) := by
  have hK6 : K = 6 := rfl
  cases hx : extractById b id with
  | none =>
    have hnotin : id ∉ entryIds b := (extractById_eq_none b id).mp hx
    rw [saw_node_none_case b id addr hx]
    have hcount0 : (entryIds b).count id = 0 := List.count_eq_zero.mpr hnotin
    by_cases hK : b.length = K
    · have hgt : (b ++ [(⟨id, addr⟩ : KBucketEntry)]).length > K := by
        simp only [List.length_append, List.length_cons, List.length_nil]
        omega
      rw [if_pos hgt]
      cases b with
      | nil => exact absurd hK (by decide)
      | cons f bt =>
        simp only [List.cons_append, List.tail_cons, List.head?_cons]
        have hbt : id ∉ entryIds bt := by
          intro hm
          apply hnotin
          simp only [entryIds, List.map_cons, List.mem_cons]
          exact Or.inr hm
        have hbtlen : bt.length + 1 = K := by simpa using hK
        refine ⟨?_, ?_, ?_, ?_⟩
        · have h0 : (entryIds bt).count id = 0 := List.count_eq_zero.mpr hbt
          have hsplit : entryIds (bt ++ [(⟨id, addr⟩ : KBucketEntry)])
              = entryIds bt ++ [id] := by
            simp [entryIds]
          rw [hsplit, List.count_append, h0, List.count_singleton]
          simp
        · exact ⟨⟨id, addr⟩, List.getLast?_concat _, rfl⟩
        · simp only [List.length_append, List.length_cons, List.length_nil]
          omega
        · rw [if_pos ⟨hK, hnotin⟩]
    · have hlt : b.length < K := lt_of_le_of_ne hlen hK
      have hngt : ¬ (b ++ [(⟨id, addr⟩ : KBucketEntry)]).length > K := by
        simp only [List.length_append, List.length_cons, List.length_nil]
        omega
      rw [if_neg hngt]
      refine ⟨?_, ?_, ?_, ?_⟩
      · have hsplit : entryIds (b ++ [(⟨id, addr⟩ : KBucketEntry)])
            = entryIds b ++ [id] := by
          simp [entryIds]
        rw [hsplit, List.count_append, hcount0, List.count_singleton]
        simp
      · exact ⟨⟨id, addr⟩, List.getLast?_concat _, rfl⟩
      · simp only [List.length_append, List.length_cons, List.length_nil]
        omega
      · rw [if_neg (by intro hc; exact hK hc.1)]
  | some p =>
    obtain ⟨e, rest⟩ := p
    obtain ⟨hid, l1, l2, hb, hr, _⟩ := extractById_some_decomp b id e rest hx
    have hmem : id ∈ entryIds b := by
      rw [hb]
      simp only [entryIds, List.map_append, List.map_cons, List.mem_append, List.mem_cons]
      exact Or.inr (Or.inl hid.symm)
    have hlenr : rest.length + 1 = b.length := by
      rw [hb, hr]
      simp only [List.length_append, List.length_cons]
      omega
    rw [saw_node_some_case b id addr e rest hx]
    have hngt : ¬ (rest ++ [e]).length > K := by
      simp only [List.length_append, List.length_cons, List.length_nil]
      omega
    rw [if_neg hngt]
    have hndr : id ∉ entryIds rest := by
      have hids : entryIds b = entryIds l1 ++ id :: entryIds l2 := by
        rw [hb]
        simp [entryIds, hid]
      rw [hids] at hnd
      have h1 : id ∉ entryIds l1 := by
        intro hm
        exact (List.disjoint_of_nodup_append hnd) hm (List.mem_cons_self _ _)
      have h2 : id ∉ entryIds l2 := by
        have hcons := (List.nodup_append.mp hnd).2.1
        exact (List.nodup_cons.mp hcons).1
      rw [hr]
      intro hm
      have hm' : id ∈ entryIds l1 ++ entryIds l2 := by
        simpa [entryIds] using hm
      rcases List.mem_append.mp hm' with hm1 | hm2
      · exact h1 hm1
      · exact h2 hm2
    refine ⟨?_, ?_, ?_, ?_⟩
    · have h0 : (entryIds rest).count id = 0 := List.count_eq_zero.mpr hndr
      have hsplit : entryIds (rest ++ [e]) = entryIds rest ++ [e.node_id] := by
        simp [entryIds]
      rw [hsplit, List.count_append, h0, hid, List.count_singleton]
      simp
    · exact ⟨e, List.getLast?_concat _, hid⟩
    · simp only [List.length_append, List.length_cons, List.length_nil]
      omega
    · rw [if_neg (by intro hc; exact hc.2 hmem)]

/-- Witness for saw_node_spec: inserting a fresh id into the singleton
bucket holding entry A. -/
theorem saw_node_spec_witness :
    ([entryA].length ≤ K ∧ (entryIds [entryA]).Nodup) ∧
    ((entryIds (saw_node [entryA] bId 101).1).count bId = 1) ∧
    (∃ e, (saw_node [entryA] bId 101).1.getLast? = some e ∧ e.node_id = bId) ∧
    ((saw_node [entryA] bId 101).1.length ≤ K) ∧
    ((saw_node [entryA] bId 101).2 =
      if [entryA].length = K ∧ bId ∉ entryIds [entryA] then [entryA].head? else none) :=
  ⟨⟨by decide, by decide⟩, saw_node_spec [entryA] bId 101 (by decide) (by decide)⟩

theorem extractById_of_mem : ∀ (b : List KBucketEntry) (id : NodeId) (a : Addr),
    (⟨id, a⟩ : KBucketEntry) ∈ b → (entryIds b).Nodup →
    ∃ rest, extractById b id = some (⟨id, a⟩, rest) := by
  intro b
  induction b with
  | nil => intro id a hmem _; simp at hmem
  | cons f fs ih =>
    intro id a hmem hnd
    by_cases hf : f = ⟨id, a⟩
    · subst hf
      exact ⟨fs, by simp [extractById]⟩
    · have hmem' : (⟨id, a⟩ : KBucketEntry) ∈ fs := by
        rcases List.mem_cons.mp hmem with h | h
        · exact absurd h.symm hf
        · exact h
      have hnd' : (f.node_id :: entryIds fs).Nodup := hnd
      have hfid : f.node_id ≠ id := by
        intro hfe
        have hin : id ∈ entryIds fs := by
          simp only [entryIds, List.mem_map]
          exact ⟨⟨id, a⟩, hmem', rfl⟩
        have hhd := (List.nodup_cons.mp hnd').1
        rw [hfe] at hhd
        exact hhd hin
      obtain ⟨rest, hrest⟩ := ih id a hmem' (List.nodup_cons.mp hnd').2
      exact ⟨f :: rest, by simp [extractById, hfid, hrest]⟩

/-- C9: re-observing a known peer with a different address moves its entry
to the back but keeps the address already stored; the address argument of
saw_node is discarded for an existing id, and no entry is evicted. -/
theorem saw_node_keeps_stored_address (b : List KBucketEntry) (id : NodeId)
    (a1 a2 : Addr) (hlen : b.length ≤ K) (hnd : (entryIds b).Nodup)
    (hmem : (⟨id, a1⟩ : KBucketEntry) ∈ b) :
    (saw_node b id a2).2 = none ∧
    (saw_node b id a2).1.getLast? = some ⟨id, a1⟩ ∧
    ∀ e ∈ (saw_node b id a2).1, e.node_id = id → e.ip = a1 := by
  have hK6 : K = 6 := rfl
  obtain ⟨rest, hx⟩ := extractById_of_mem b id a1 hmem hnd
  obtain ⟨_, l1, l2, hb, hr, _⟩ := extractById_some_decomp b id ⟨id, a1⟩ rest hx
  have hlenr : rest.length + 1 = b.length := by
    rw [hb, hr]
    simp only [List.length_append, List.length_cons]
    omega
  rw [saw_node_some_case b id a2 ⟨id, a1⟩ rest hx]
  have hngt : ¬ (rest ++ [(⟨id, a1⟩ : KBucketEntry)]).length > K := by
    simp only [List.length_append, List.length_cons, List.length_nil]
    omega
  rw [if_neg hngt]
  have hndr : id ∉ entryIds rest := by
    have hids : entryIds b = entryIds l1 ++ id :: entryIds l2 := by
      rw [hb]
      simp [entryIds]
    rw [hids] at hnd
    have h1 : id ∉ entryIds l1 := by
      intro hm
      exact (List.disjoint_of_nodup_append hnd) hm (List.mem_cons_self _ _)
    have h2 : id ∉ entryIds l2 := by
      have hcons := (List.nodup_append.mp hnd).2.1
      exact (List.nodup_cons.mp hcons).1
    rw [hr]
    intro hm
    have hm' : id ∈ entryIds l1 ++ entryIds l2 := by
      simpa [entryIds] using hm
    rcases List.mem_append.mp hm' with hm1 | hm2
    · exact h1 hm1
    · exact h2 hm2
  refine ⟨rfl, List.getLast?_concat _, ?_⟩
  intro e hme hide
  rcases List.mem_append.mp hme with hrest | hlast
  · exfalso
    exact hndr (by simp only [entryIds, List.mem_map]; exact ⟨e, hrest, hide⟩)
  · have : e = ⟨id, a1⟩ := by simpa using hlast
    rw [this]

/-- Witness for saw_node_keeps_stored_address: bucket [A, B] sees the id of
A again under a different address; A moves to the back keeping address 100. -/
theorem saw_node_keeps_stored_address_witness :
    ([entryA, entryB].length ≤ K ∧ (entryIds [entryA, entryB]).Nodup ∧
      (⟨aId, 100⟩ : KBucketEntry) ∈ [entryA, entryB]) ∧
    (saw_node [entryA, entryB] aId 777).2 = none ∧
    (saw_node [entryA, entryB] aId 777).1.getLast? = some ⟨aId, 100⟩ ∧
    (∀ e ∈ (saw_node [entryA, entryB] aId 777).1, e.node_id = aId → e.ip = 100) :=
  ⟨⟨by decide, by decide, by decide⟩,
    saw_node_keeps_stored_address [entryA, entryB] aId 100 777 (by decide) (by decide)
      (by decide)⟩

/-- C10: whatever 64-bit value the standard library SipHash finish step
produces, the key packed by storage::hash is zero at every byte index from 8
to 19; only the first 8 bytes can be non-zero.  Determinism is inherent:
the packing is a pure function and SipHasher::new() is keyed by constants,
so equal inputs give equal keys. -/
theorem storage_hash_high_bytes_zero (h i : Nat) (h8 : 8 ≤ i) (h20 : i < 20) :
    (storage_hash_bytes h).getD i 1 = 0 := by
  have hset : ∀ (l : List Nat) (j v : Nat), j < 8 → (l.set j v).getD i 1 = l.getD i 1 := by
    intro l j v hj
    rw [List.getD_eq_getElem?_getD, List.getD_eq_getElem?_getD, List.getElem?_set]
    rw [if_neg (by omega)]
  unfold storage_hash_bytes
  rw [show List.range 8 = [0, 1, 2, 3, 4, 5, 6, 7] from rfl]
  simp only [List.foldl_cons, List.foldl_nil]
  rw [hset _ _ _ (by omega), hset _ _ _ (by omega), hset _ _ _ (by omega),
    hset _ _ _ (by omega), hset _ _ _ (by omega), hset _ _ _ (by omega),
    hset _ _ _ (by omega), hset _ _ _ (by omega)]
  rw [List.getD_eq_getElem?_getD, List.getElem?_replicate, if_pos h20]
  rfl

/-- Witness for storage_hash_high_bytes_zero at a concrete hash value and a
concrete high byte index. -/
theorem storage_hash_high_bytes_zero_witness :
    8 ≤ 13 ∧ 13 < 20 ∧ (storage_hash_bytes 1234567890123).getD 13 1 = 0 :=
  ⟨by decide, by decide, storage_hash_high_bytes_zero 1234567890123 13 (by decide) (by decide)⟩

/-- C6 at the failing input: the all-zero id renders as the empty string
(Display skips every byte as a leading zero byte), and from_hex_string
rejects the empty string, so parsing the rendering of the zero id yields
none, not the id; the claimed rendering is the single digit zero. -/
theorem hex_roundtrip_fails_on_zero_id :
    toHexChars zeroId = [] ∧
    from_hex_string (toHexChars zeroId) = none ∧
    from_hex_string (toHexChars zeroId) ≠ some zeroId := by
  refine ⟨by decide, by decide, by decide⟩

theorem bucketIndexAux_le : ∀ (bs : List Nat) (idx : Nat), bucketIndexAux bs idx ≤ idx := by
  intro bs
  induction bs with
  | nil => intro idx; simp [bucketIndexAux]
  | cons b bs ih =>
    intro idx
    have hs := scanBits_eq_scanRel b bitList idx
    unfold bucketIndexAux
    rw [hs]
    cases hr : scanRel b bitList with
    | some t => exact Nat.sub_le idx t
    | none => exact le_trans (ih _) (Nat.sub_le _ _)

theorem bucket_index_le (d : NodeId) : bucket_index d ≤ 159 := bucketIndexAux_le d 159

theorem xorId_self (a : NodeId) : xorId a a = List.replicate a.length 0 := by
  induction a with
  | nil => rfl
  | cons x xs ih =>
    show (x ^^^ x) :: xorId xs xs = List.replicate (xs.length + 1) 0
    rw [Nat.xor_self, ih, List.replicate_succ]

theorem saw_node_mem_id (b : List KBucketEntry) (id : NodeId) (a : Addr) :
    id ∈ entryIds (saw_node b id a).1 := by
  have hK6 : K = 6 := rfl
  have hsplit : ∀ (l : List KBucketEntry) (e : KBucketEntry),
      entryIds (l ++ [e]) = entryIds l ++ [e.node_id] := by
    intro l e
    simp [entryIds]
  cases hx : extractById b id with
  | none =>
    rw [saw_node_none_case b id a hx]
    by_cases hov : (b ++ [(⟨id, a⟩ : KBucketEntry)]).length > K
    · rw [if_pos hov]
      cases b with
      | nil =>
        exfalso
        simp only [List.nil_append, List.length_cons, List.length_nil] at hov
        omega
      | cons f bt =>
        simp only [List.cons_append, List.tail_cons]
        rw [hsplit, List.mem_append]
        exact Or.inr (List.mem_singleton_self _)
    · rw [if_neg hov]
      rw [hsplit, List.mem_append]
      exact Or.inr (List.mem_singleton_self _)
  | some p =>
    obtain ⟨e, rest⟩ := p
    obtain ⟨hid, _, _, _, _, _⟩ := extractById_some_decomp b id e rest hx
    rw [saw_node_some_case b id a e rest hx]
    by_cases hov : (rest ++ [e]).length > K
    · rw [if_pos hov]
      cases rest with
      | nil =>
        exfalso
        simp only [List.nil_append, List.length_cons, List.length_nil] at hov
        omega
      | cons f rt =>
        simp only [List.cons_append, List.tail_cons]
        rw [hsplit, List.mem_append, hid]
        exact Or.inr (List.mem_singleton_self _)
    · rw [if_neg hov]
      rw [hsplit, List.mem_append, hid]
      exact Or.inr (List.mem_singleton_self _)

set_option maxRecDepth 100000 in
/-- C5 counterexample: note_node with the owner id does NOT leave the
routing table unchanged; on a fresh node it stores the owner id (in bucket
0), because the source has no owner-id check. -/
theorem note_node_owner_cex :
    tableIds (note_node ⟨zeroId, emptyBuckets, []⟩ zeroId 42) = [zeroId] ∧
    tableIds (⟨zeroId, emptyBuckets, []⟩ : Node) = [] ∧
    note_node ⟨zeroId, emptyBuckets, []⟩ zeroId 42 ≠ ⟨zeroId, emptyBuckets, []⟩ := by
  refine ⟨by decide, by decide, by decide⟩

set_option maxRecDepth 100000 in
/-- C5 (amended): note_node never checks the id against the owner: for every
id it rewrites exactly the bucket at index xor(owner, id).bucket_index()
through saw_node and leaves every other bucket unchanged; in particular with
a 20-byte owner id and the usual 160 buckets, note_node(owner_id, addr)
stores the owner id itself (in bucket 0). -/
theorem note_node_updates_single_bucket (n : Node) (id : NodeId) (addr : Addr)
    (hlen : n.id.length = 20) (hbuckets : n.buckets.length = 160) :
    ((note_node n id addr).buckets[bucket_index (xorId n.id id)]? =
      some (saw_node (n.buckets.getD (bucket_index (xorId n.id id)) []) id addr).1) ∧
    (∀ j, j ≠ bucket_index (xorId n.id id) →
      (note_node n id addr).buckets[j]? = n.buckets[j]?) ∧
    n.id ∈ tableIds (note_node n n.id addr) := by
  have hle := bucket_index_le (xorId n.id id)
  refine ⟨?_, ?_, ?_⟩
  · simp only [note_node]
    exact List.getElem?_set_self (by omega)
  · intro j hj
    simp only [note_node]
    rw [List.getElem?_set]
    rw [if_neg (fun he => hj he.symm)]
  · have hzero : xorId n.id n.id = List.replicate 20 0 := by
      rw [xorId_self, hlen]
    have hbi : bucket_index (xorId n.id n.id) = 0 := by
      rw [hzero]
      decide
    simp only [note_node, tableIds, hbi]
    rw [List.mem_flatten]
    refine ⟨entryIds (saw_node (n.buckets.getD 0 []) n.id addr).1, ?_, ?_⟩
    · rw [List.mem_map]
      refine ⟨(saw_node (n.buckets.getD 0 []) n.id addr).1, ?_, rfl⟩
      have h0 : (0 : Nat) <
          (n.buckets.set 0 (saw_node (n.buckets.getD 0 []) n.id addr).1).length := by
        rw [List.length_set]
        omega
      have hmem0 := List.getElem_mem h0
      rwa [List.getElem_set_self (by omega)] at hmem0
    · exact saw_node_mem_id _ _ _

set_option maxRecDepth 100000 in
/-- Witness for note_node_updates_single_bucket on a concrete node. -/
theorem note_node_updates_single_bucket_witness :
    (cNodeA.id.length = 20 ∧ cNodeA.buckets.length = 160) ∧
    ((note_node cNodeA bId 55).buckets[bucket_index (xorId cNodeA.id bId)]? =
      some (saw_node (cNodeA.buckets.getD (bucket_index (xorId cNodeA.id bId)) []) bId 55).1) ∧
    (∀ j, j ≠ bucket_index (xorId cNodeA.id bId) →
      (note_node cNodeA bId 55).buckets[j]? = cNodeA.buckets[j]?) ∧
    cNodeA.id ∈ tableIds (note_node cNodeA cNodeA.id 55) :=
  ⟨⟨by decide, by decide⟩,
    note_node_updates_single_bucket cNodeA bId 55 (by decide) (by decide)⟩

theorem gatherLoop_fuel_stable (buckets : List KBucket) (seen : List NodeId) (index : Nat) :
    ∀ (f d : Nat) (ret : List KBucketEntry), buckets.length + index + 1 ≤ d + f →
      gatherLoop buckets seen index (f + 1) d ret = gatherLoop buckets seen index f d ret := by
  intro f
  induction f with
  | zero =>
    intro d ret hd
    have h1 : ¬ d ≤ index := by omega
    have h2 : ¬ index + d < buckets.length := by omega
    simp only [gatherLoop, h1, h2, ite_false, or_self, if_neg]
    simp
  | succ f ih =>
    intro d ret hd
    show gatherLoop buckets seen index (f + 1 + 1) d ret
        = gatherLoop buckets seen index (f + 1) d ret
    by_cases hK : ret.length < K
    · by_cases hfound : d ≤ index ∨ index + d < buckets.length
      · simp only [gatherLoop, hK, ite_true, hfound]
        apply ih
        omega
      · simp only [gatherLoop, hK, ite_true, hfound, ite_false]
    · simp only [gatherLoop, hK, ite_false]

theorem collect_into_mem (entries result : List KBucketEntry) (seen : List NodeId)
    (e : KBucketEntry) (h : e ∈ collect_into entries result seen) :
    e ∈ result ∨ (e ∈ entries ∧ e.node_id ∉ seen) := by
  rcases List.mem_append.mp h with h1 | h2
  · exact Or.inl h1
  · right
    have := List.mem_filter.mp h2
    refine ⟨this.1, ?_⟩
    have hd := this.2
    simpa using hd

theorem gatherLoop_mem (buckets : List KBucket) (seen : List NodeId) (index : Nat) :
    ∀ (f d : Nat) (ret : List KBucketEntry) (e : KBucketEntry),
      e ∈ gatherLoop buckets seen index f d ret →
      e ∈ ret ∨ ((∃ i, e ∈ buckets.getD i []) ∧ e.node_id ∉ seen) := by
  intro f
  induction f with
  | zero =>
    intro d ret e h
    exact Or.inl h
  | succ f ih =>
    intro d ret e h
    rw [gatherLoop] at h
    by_cases hK : ret.length < K
    · rw [if_pos hK] at h
      have hret2 : ∀ x, x ∈
          (if index + d < buckets.length then
            collect_into (buckets.getD (index + d) [])
              (if d ≤ index then collect_into (buckets.getD (index - d) []) ret seen else ret)
              seen
          else
            (if d ≤ index then collect_into (buckets.getD (index - d) []) ret seen else ret)) →
          x ∈ ret ∨ ((∃ i, x ∈ buckets.getD i []) ∧ x.node_id ∉ seen) := by
        intro x hx
        by_cases h2 : index + d < buckets.length
        · rw [if_pos h2] at hx
          rcases collect_into_mem _ _ _ _ hx with hx1 | hx2
          · by_cases h1 : d ≤ index
            · rw [if_pos h1] at hx1
              rcases collect_into_mem _ _ _ _ hx1 with hy1 | hy2
              · exact Or.inl hy1
              · exact Or.inr ⟨⟨index - d, hy2.1⟩, hy2.2⟩
            · rw [if_neg h1] at hx1
              exact Or.inl hx1
          · exact Or.inr ⟨⟨index + d, hx2.1⟩, hx2.2⟩
        · rw [if_neg h2] at hx
          by_cases h1 : d ≤ index
          · rw [if_pos h1] at hx
            rcases collect_into_mem _ _ _ _ hx with hy1 | hy2
            · exact Or.inl hy1
            · exact Or.inr ⟨⟨index - d, hy2.1⟩, hy2.2⟩
          · rw [if_neg h1] at hx
            exact Or.inl hx
      by_cases hfound : d ≤ index ∨ index + d < buckets.length
      · rw [if_pos hfound] at h
        rcases ih (d + 1) _ e h with h1 | h2
        · exact hret2 e h1
        · exact Or.inr h2
      · rw [if_neg hfound] at h
        exact hret2 e h
    · rw [if_neg hK] at h
      exact Or.inl h

/-- C1 (amended): find_k_known_nodes_closer_to_not_in returns at most K
entries, none of whose ids are in the exclusion set, sorted ascending by XOR
distance to the OWNER id (the self.id sort key the source uses), not to the
target id. -/
theorem find_k_spec (n : Node) (id : NodeId) (seen : List NodeId) :
    (find_k_known_nodes_closer_to_not_in n id seen).length ≤ K ∧
    (∀ e ∈ find_k_known_nodes_closer_to_not_in n id seen, e.node_id ∉ seen) ∧
    List.Pairwise (entryLe n.id) (find_k_known_nodes_closer_to_not_in n id seen) := by
  refine ⟨List.length_take_le _ _, ?_, ?_⟩
  · intro e he
    have hsorted := List.mem_of_mem_take he
    have hgathered := (List.mem_insertionSort (entryLe n.id)).mp hsorted
    rcases gatherLoop_mem n.buckets seen (bucket_index (xorId n.id id)) _ _ _ e hgathered with
      h1 | h2
    · rcases collect_into_mem _ _ _ _ h1 with h3 | h4
      · simp at h3
      · exact h4.2
    · exact h2.2
  · have hsorted := List.sorted_insertionSort (entryLe n.id)
      (gatherLoop n.buckets seen (bucket_index (xorId n.id id))
        (n.buckets.length + bucket_index (xorId n.id id) + 1) 1
        (collect_into (n.buckets.getD (bucket_index (xorId n.id id)) []) [] seen))
    exact List.Pairwise.sublist (List.take_sublist _ _) hsorted

set_option maxRecDepth 1000000 in
/-- C1 counterexample: on the node owned by the zero id with peers A (last
byte 2, address 100) and B (last byte 3, address 101) in bucket 1, the
lookup result for target id 1 is [A, B] (the source sorts by distance to
the owner: 2 before 3), yet the XOR distances to the TARGET are 3 for A and
2 for B, so the result is not sorted ascending by distance to the target. -/
theorem find_k_not_sorted_by_target_cex :
    find_k_known_nodes_closer_to_not_in cNodeAB tId [] = [entryA, entryB] ∧
    ¬ List.Pairwise (fun a b : KBucketEntry =>
        distLe (xorId tId a.node_id) (xorId tId b.node_id))
      (find_k_known_nodes_closer_to_not_in cNodeAB tId []) := by
  refine ⟨by decide, by decide⟩

theorem findLoop_timeout (fuel : Nat) : ∀ (k : NodeId) (n : Node) (seen : List NodeId)
    (carry : List KBucketEntry) (oldT : Option Nat) (sched : Nat → RecvEvent) (pos : Nat)
    (res : Except Unit (Option (List Nat))) (tfin : Option Nat),
    findLoop fuel k n seen carry oldT sched pos = some (res, tfin) →
    (∀ v, res = .ok v → tfin = oldT) ∧ (∀ u, res = .error u → tfin = none) := by
  induction fuel with
  | zero =>
    intro k n seen carry oldT sched pos res tfin h
    exact absurd h (by simp [findLoop])
  | succ fuel ih =>
    intro k n seen carry oldT sched pos res tfin h
    rw [findLoop] at h
    by_cases hemp : find_k_known_nodes_closer_to_not_in n k seen = [] ∧ carry = []
    · rw [if_pos hemp] at h
      injection h with h
      injection h with h1 h2
      subst h1
      subst h2
      constructor
      · intro v _
        rfl
      · intro u hu
        exact absurd hu (by simp)
    · rw [if_neg hemp] at h
      cases hev : sched pos with
      | ioError =>
        rw [hev] at h
        simp only at h
        injection h with h
        injection h with h1 h2
        subst h1
        subst h2
        constructor
        · intro v hv
          exact absurd hv (by simp)
        · intro u _
          rfl
      | msg sender source kind =>
        rw [hev] at h
        cases kind with
        | request r =>
          exact ih _ _ _ _ _ _ _ _ _ h
        | response rk =>
          cases rk with
          | pong => exact ih _ _ _ _ _ _ _ _ _ h
          | findNode ns => exact ih _ _ _ _ _ _ _ _ _ h
          | findValue fvr =>
            cases fvr with
            | value key v =>
              simp only at h
              by_cases hkey : key = k
              · rw [if_pos hkey] at h
                injection h with h
                injection h with h1 h2
                subst h1
                subst h2
                constructor
                · intro w _
                  rfl
                · intro u hu
                  exact absurd hu (by simp)
              · rw [if_neg hkey] at h
                exact ih _ _ _ _ _ _ _ _ _ h
            | closerNodes ns => exact ih _ _ _ _ _ _ _ _ _ h

/-- C3 (amended): find restores the prior read timeout on the Ok exit paths
(value found, frontier exhausted, local store hit), but NOT on the receive
error exit: the try operator on recv_message propagates the error before any
restore, leaving the socket timeout cleared (None). -/
theorem find_timeout_on_exit (fuel : Nat) (n : Node) (k : NodeId) (oldT : Option Nat)
    (sched : Nat → RecvEvent) (pos : Nat) (res : Except Unit (Option (List Nat)))
    (tfin : Option Nat) (h : find fuel n k oldT sched pos = some (res, tfin)) :
    (∀ v, res = .ok v → tfin = oldT) ∧ (∀ u, res = .error u → tfin = none) := by
  unfold find at h
  cases hst : storeGet n.store k with
  | some v =>
    rw [hst] at h
    simp only at h
    injection h with h
    injection h with h1 h2
    subst h1
    subst h2
    constructor
    · intro w _
      rfl
    · intro u hu
      exact absurd hu (by simp)
  | none =>
    rw [hst] at h
    exact findLoop_timeout fuel _ _ _ _ _ _ _ _ _ h

set_option maxRecDepth 1000000 in
/-- Witness for find_timeout_on_exit: the node knowing only A receives a
Pong and then exhausts the frontier; find returns Ok(None) with the prior
timeout some 5 restored. -/
theorem find_timeout_on_exit_witness :
    find 2 cNodeA tId (some 5) schedPong 0 = some (.ok none, some 5) ∧
    ((∀ v, (Except.ok none : Except Unit (Option (List Nat))) = .ok v → some 5 = some 5) ∧
     (∀ u, (Except.ok none : Except Unit (Option (List Nat))) = .error u →
        (some 5 : Option Nat) = none)) :=
  ⟨by decide, find_timeout_on_exit 2 cNodeA tId (some 5) schedPong 0 _ _ (by decide)⟩

set_option maxRecDepth 1000000 in
/-- C3 counterexample: with prior read timeout some 5, the first receive
fails; find returns the error with the socket timeout still none (cleared
at entry), not restored to some 5, falsifying restoration on every exit
path. -/
theorem find_timeout_not_restored_on_error_cex :
    find 1 cNodeA tId (some 5) schedErr 0 = some (.error (), none) ∧
    (none : Option Nat) ≠ some 5 :=
  ⟨by decide, by decide⟩

/-- C4 (amended): when the blocking receive inside find yields a request,
the node services it via handle_request and then re-enters the round check
(the request consumes a round, it does not keep blocking); hence if the
round had sent to a non-empty frontier and the frontier left after the
request is empty, find returns Ok(None) although no queried peer responded,
whatever datagrams the schedule would have delivered later. -/
theorem find_request_consumes_round (fuel : Nat) (k : NodeId) (n : Node)
    (seen : List NodeId) (carry : List KBucketEntry) (oldT : Option Nat)
    (sched : Nat → RecvEvent) (pos : Nat) (s : NodeId) (a : Addr) (r : RequestKind)
    (hev : sched pos = .msg s a (.request r))
    (hfront : ¬ (find_k_known_nodes_closer_to_not_in n k seen = [] ∧ carry = []))
    (hnext : find_k_known_nodes_closer_to_not_in (handle_request (note_node n s a) r) k
        (insertAll seen (entryIds (find_k_known_nodes_closer_to_not_in n k seen ++ carry)))
        = []) :
    findLoop (fuel + 2) k n seen carry oldT sched pos = some (.ok none, oldT) := by
  show findLoop ((fuel + 1) + 1) k n seen carry oldT sched pos = some (.ok none, oldT)
  rw [findLoop]
  rw [if_neg hfront, hev]
  simp only
  rw [findLoop]
  rw [if_pos ⟨hnext, rfl⟩]

set_option maxRecDepth 1000000 in
/-- Witness for find_request_consumes_round on the concrete one-peer node
and the Ping-only schedule. -/
theorem find_request_consumes_round_witness :
    (schedPing 0 = .msg aId 100 (.request .ping) ∧
     ¬ (find_k_known_nodes_closer_to_not_in cNodeA tId [] = [] ∧
        ([] : List KBucketEntry) = []) ∧
     find_k_known_nodes_closer_to_not_in (handle_request (note_node cNodeA aId 100) .ping)
        tId (insertAll [] (entryIds (find_k_known_nodes_closer_to_not_in cNodeA tId [] ++ [])))
        = []) ∧
    findLoop 2 tId cNodeA [] [] (some 9) schedPing 0 = some (.ok none, some 9) :=
  ⟨⟨by decide, by decide, by decide⟩,
    find_request_consumes_round 0 tId cNodeA [] [] (some 9) schedPing 0 aId 100 .ping
      (by decide) (by decide) (by decide)⟩

set_option maxRecDepth 1000000 in
/-- C4 counterexample: the node knowing only peer A sends it the FindValue
in round one; the only datagram that ever arrives is a Ping request from A;
find services it and then returns Ok(None), although the queried peer never
answered, so receiving a request can by itself cause an Ok(None) return
with responses still pending. -/
theorem find_request_leads_to_none_cex :
    find 2 cNodeA tId (some 7) schedPing 0 = some (.ok none, some 7) := by
  decide

theorem insertAll_mem : ∀ (ids seen : List NodeId) (x : NodeId),
    x ∈ insertAll seen ids ↔ x ∈ seen ∨ x ∈ ids := by
  intro ids
  induction ids with
  | nil => intro seen x; simp [insertAll]
  | cons y ys ih =>
    intro seen x
    show x ∈ insertAll (if y ∈ seen then seen else y :: seen) ys ↔ _
    rw [ih]
    by_cases hy : y ∈ seen
    · rw [if_pos hy]
      constructor
      · rintro (h | h)
        · exact Or.inl h
        · exact Or.inr (List.mem_cons_of_mem _ h)
      · rintro (h | h)
        · exact Or.inl h
        · rcases List.mem_cons.mp h with he | hm
          · exact Or.inl (he ▸ hy)
          · exact Or.inr hm
    · rw [if_neg hy]
      constructor
      · rintro (h | h)
        · rcases List.mem_cons.mp h with he | hm
          · exact Or.inr (he ▸ List.mem_cons_self _ _)
          · exact Or.inl hm
        · exact Or.inr (List.mem_cons_of_mem _ h)
      · rintro (h | h)
        · exact Or.inl (List.mem_cons_of_mem _ h)
        · rcases List.mem_cons.mp h with he | hm
          · exact Or.inl (he ▸ List.mem_cons_self _ _)
          · exact Or.inr hm

theorem filter_sublist_filter (p q : NodeId → Bool)
    (himp : ∀ x, q x = true → p x = true) :
    ∀ U : List NodeId, (U.filter q).Sublist (U.filter p) := by
  intro U
  induction U with
  | nil => simp
  | cons y ys ih =>
    by_cases hq : q y = true
    · have hp := himp y hq
      simp only [List.filter_cons, hq, hp, ite_true]
      exact ih.cons₂ y
    · simp only [List.filter_cons, Bool.not_eq_true] at hq
      simp only [List.filter_cons, hq]
      by_cases hp : p y = true
      · simp only [hp, ite_true]
        exact ih.cons y
      · simp only [Bool.not_eq_true] at hp
        simp only [hp]
        simpa using ih

theorem length_filter_lt (U : List NodeId) (p q : NodeId → Bool)
    (himp : ∀ x, q x = true → p x = true) (x : NodeId) (hxU : x ∈ U)
    (hxp : p x = true) (hxq : q x = false) :
    (U.filter q).length < (U.filter p).length := by
  have hsub := filter_sublist_filter p q himp U
  have hle := hsub.length_le
  rcases Nat.lt_or_ge (U.filter q).length (U.filter p).length with hlt | hge
  · exact hlt
  · exfalso
    have heq : U.filter q = U.filter p := hsub.eq_of_length (by omega)
    have hxin : x ∈ U.filter p := List.mem_filter.mpr ⟨hxU, hxp⟩
    rw [← heq] at hxin
    have := (List.mem_filter.mp hxin).2
    rw [hxq] at this
    exact Bool.false_ne_true this

theorem getD_bucket_mem (buckets : List KBucket) (i : Nat) (e : KBucketEntry)
    (h : e ∈ buckets.getD i []) : ∃ b, b ∈ buckets ∧ e ∈ b := by
  rw [List.getD_eq_getElem?_getD] at h
  cases hb : buckets[i]? with
  | none => rw [hb] at h; simp at h
  | some b =>
    rw [hb] at h
    exact ⟨b, List.getElem?_mem hb, h⟩

theorem mem_tableIds_of (n : Node) (b : KBucket) (e : KBucketEntry)
    (hb : b ∈ n.buckets) (he : e ∈ b) : e.node_id ∈ tableIds n := by
  unfold tableIds
  rw [List.mem_flatten]
  refine ⟨entryIds b, List.mem_map.mpr ⟨b, hb, rfl⟩, ?_⟩
  exact List.mem_map.mpr ⟨e, he, rfl⟩

theorem find_k_mem_tableIds (n : Node) (id : NodeId) (seen : List NodeId)
    (e : KBucketEntry) (he : e ∈ find_k_known_nodes_closer_to_not_in n id seen) :
    e.node_id ∈ tableIds n := by
  have hsorted := List.mem_of_mem_take he
  have hgathered := (List.mem_insertionSort (entryLe n.id)).mp hsorted
  rcases gatherLoop_mem n.buckets seen (bucket_index (xorId n.id id)) _ _ _ e hgathered with
    h1 | h2
  · rcases collect_into_mem _ _ _ _ h1 with h3 | h4
    · simp at h3
    · obtain ⟨b, hb, hbe⟩ := getD_bucket_mem _ _ _ h4.1
      exact mem_tableIds_of n b e hb hbe
  · obtain ⟨i, hi⟩ := h2.1
    obtain ⟨b, hb, hbe⟩ := getD_bucket_mem _ _ _ hi
    exact mem_tableIds_of n b e hb hbe

theorem saw_node_ids_subset (b : List KBucketEntry) (id : NodeId) (a : Addr)
    (x : NodeId) (hx : x ∈ entryIds (saw_node b id a).1) : x = id ∨ x ∈ entryIds b := by
  have happend : ∀ (l : List KBucketEntry) (e : KBucketEntry),
      x ∈ entryIds (l ++ [e]) → x = e.node_id ∨ x ∈ entryIds l := by
    intro l e hmem
    have : entryIds (l ++ [e]) = entryIds l ++ [e.node_id] := by simp [entryIds]
    rw [this] at hmem
    rcases List.mem_append.mp hmem with h1 | h2
    · exact Or.inr h1
    · exact Or.inl (by simpa using h2)
  have htail : ∀ l : List KBucketEntry, x ∈ entryIds l.tail → x ∈ entryIds l := by
    intro l hmem
    exact ((List.tail_sublist l).map (fun e => e.node_id)).subset hmem
  cases hex : extractById b id with
  | none =>
    rw [saw_node_none_case b id a hex] at hx
    by_cases hov : (b ++ [(⟨id, a⟩ : KBucketEntry)]).length > K
    · rw [if_pos hov] at hx
      simp only at hx
      rcases happend _ _ (htail _ hx) with h | h
      · exact Or.inl h
      · exact Or.inr h
    · rw [if_neg hov] at hx
      simp only at hx
      rcases happend _ _ hx with h | h
      · exact Or.inl h
      · exact Or.inr h
  | some p =>
    obtain ⟨e, rest⟩ := p
    obtain ⟨hid, l1, l2, hb, hr, _⟩ := extractById_some_decomp b id e rest hex
    have hrest_sub : ∀ y, y ∈ entryIds rest → y ∈ entryIds b := by
      intro y hy
      rw [hr] at hy
      rw [hb]
      have h1 : entryIds (l1 ++ l2) = entryIds l1 ++ entryIds l2 := by simp [entryIds]
      have h2 : entryIds (l1 ++ e :: l2) = entryIds l1 ++ e.node_id :: entryIds l2 := by
        simp [entryIds]
      rw [h1] at hy
      rw [h2]
      rcases List.mem_append.mp hy with hm | hm
      · exact List.mem_append.mpr (Or.inl hm)
      · exact List.mem_append.mpr (Or.inr (List.mem_cons_of_mem _ hm))
    rw [saw_node_some_case b id a e rest hex] at hx
    by_cases hov : (rest ++ [e]).length > K
    · rw [if_pos hov] at hx
      simp only at hx
      rcases happend _ _ (htail _ hx) with h | h
      · exact Or.inl (h.trans hid)
      · exact Or.inr (hrest_sub _ h)
    · rw [if_neg hov] at hx
      simp only at hx
      rcases happend _ _ hx with h | h
      · exact Or.inl (h.trans hid)
      · exact Or.inr (hrest_sub _ h)

theorem tableIds_note_node (n : Node) (s : NodeId) (a : Addr) (x : NodeId)
    (hx : x ∈ tableIds (note_node n s a)) : x = s ∨ x ∈ tableIds n := by
  simp only [note_node, tableIds] at hx
  rw [List.mem_flatten] at hx
  obtain ⟨ids, hids, hxin⟩ := hx
  rw [List.mem_map] at hids
  obtain ⟨b', hb', rfl⟩ := hids
  rcases List.mem_or_eq_of_mem_set hb' with hold | hnew
  · refine Or.inr ?_
    unfold tableIds
    rw [List.mem_flatten]
    exact ⟨entryIds b', List.mem_map.mpr ⟨b', hold, rfl⟩, hxin⟩
  · subst hnew
    rcases saw_node_ids_subset _ _ _ _ hxin with h | h
    · exact Or.inl h
    · refine Or.inr ?_
      simp only [entryIds] at h
      obtain ⟨e, he, heq⟩ := List.mem_map.mp h
      obtain ⟨b, hb, hbe⟩ := getD_bucket_mem _ _ _ he
      rw [← heq]
      exact mem_tableIds_of n b e hb hbe

theorem tableIds_handle_request (n : Node) (r : RequestKind) :
    tableIds (handle_request n r) = tableIds n := by
  cases r <;> rfl

theorem rangeIds_succ (sched : Nat → RecvEvent) (pos j : Nat) (h : pos < j) :
    rangeIds sched pos j = eventIds (sched pos) ++ rangeIds sched (pos + 1) j := by
  unfold rangeIds
  have hj : j - pos = (j - (pos + 1)) + 1 := by omega
  rw [hj, List.range_succ_eq_map]
  simp only [List.map_cons, List.flatten_cons, Nat.add_zero]
  have hfun : ((fun t => eventIds (sched (pos + t))) ∘ Nat.succ)
      = fun t => eventIds (sched (pos + 1 + t)) := by
    funext t
    simp only [Function.comp_apply]
    have harg : pos + Nat.succ t = pos + 1 + t := by omega
    rw [harg]
  rw [List.map_map, hfun]

theorem Fresh_step (sched : Nat → RecvEvent) (pos : Nat) (B : List NodeId)
    (hF : Fresh sched pos B) :
    Fresh sched (pos + 1) (B ++ eventIds (sched pos)) := by
  intro j hj s a ns heq hne
  obtain ⟨x, hxns, hxB, hxrange, hxs⟩ := hF j (by omega) s a ns heq hne
  refine ⟨x, hxns, ?_, ?_, hxs⟩
  · intro hmem
    rcases List.mem_append.mp hmem with hmem1 | hmem2
    · exact hxB hmem1
    · apply hxrange
      rw [rangeIds_succ sched pos j (by omega)]
      exact List.mem_append.mpr (Or.inl hmem2)
  · intro hmem
    apply hxrange
    rw [rangeIds_succ sched pos j (by omega)]
    exact List.mem_append.mpr (Or.inr hmem)

theorem findLoop_terminates_aux : ∀ (m : Nat) (U : List NodeId) (k : NodeId) (n : Node)
    (seen : List NodeId) (carry : List KBucketEntry) (oldT : Option Nat)
    (sched : Nat → RecvEvent) (pos : Nat) (B : List NodeId),
    (U.filter (fun y => decide (y ∉ seen))).length ≤ m →
    (∀ x, x ∈ tableIds n → x ∈ U) →
    (∀ x, x ∈ entryIds carry → x ∈ U) →
    EventsIn sched pos U →
    (∀ x, x ∈ tableIds n → x ∈ B) →
    (∀ x, x ∈ entryIds carry → x ∈ B) →
    (∀ x, x ∈ seen → x ∈ B) →
    Fresh sched pos B →
    (carry ≠ [] → ∃ x ∈ entryIds carry, x ∉ seen) →
    findLoop (m + 1) k n seen carry oldT sched pos ≠ none := by
  intro m
  induction m with
  | zero =>
    intro U k n seen carry oldT sched pos B hm hTU hCU hEU hTB hCB hSB hF hCfresh
    have hU_seen : ∀ y, y ∈ U → y ∈ seen := by
      intro y hy
      by_contra hns
      have hmemf : y ∈ U.filter (fun y => decide (y ∉ seen)) :=
        List.mem_filter.mpr ⟨hy, by simpa using hns⟩
      have := List.length_pos_of_mem hmemf
      omega
    have hnodes : find_k_known_nodes_closer_to_not_in n k seen = [] := by
      cases hns : find_k_known_nodes_closer_to_not_in n k seen with
      | nil => rfl
      | cons e es =>
        exfalso
        have hmem : e ∈ find_k_known_nodes_closer_to_not_in n k seen := by
          rw [hns]
          exact List.mem_cons_self _ _
        have h1 := (find_k_spec n k seen).2.1 e hmem
        have h2 := find_k_mem_tableIds n k seen e hmem
        exact h1 (hU_seen _ (hTU _ h2))
    have hcarry : carry = [] := by
      cases hc : carry with
      | nil => rfl
      | cons e es =>
        exfalso
        obtain ⟨x, hxc, hxs⟩ := hCfresh (by rw [hc]; simp)
        exact hxs (hU_seen _ (hCU _ hxc))
    rw [findLoop]
    rw [if_pos ⟨hnodes, hcarry⟩]
    simp
  | succ m ih =>
    intro U k n seen carry oldT sched pos B hm hTU hCU hEU hTB hCB hSB hF hCfresh
    rw [findLoop]
    by_cases hemp : find_k_known_nodes_closer_to_not_in n k seen = [] ∧ carry = []
    · rw [if_pos hemp]
      simp
    · rw [if_neg hemp]
      have hidsplit : entryIds (find_k_known_nodes_closer_to_not_in n k seen ++ carry)
          = entryIds (find_k_known_nodes_closer_to_not_in n k seen) ++ entryIds carry := by
        simp [entryIds]
      have hseen_sub : ∀ y, y ∈ seen →
          y ∈ insertAll seen (entryIds (find_k_known_nodes_closer_to_not_in n k seen ++ carry)) :=
        fun y hy => (insertAll_mem _ _ _).mpr (Or.inl hy)
      have hx0 : ∃ x0, x0 ∈ U ∧ x0 ∉ seen ∧
          x0 ∈ insertAll seen
            (entryIds (find_k_known_nodes_closer_to_not_in n k seen ++ carry)) := by
        by_cases hn : find_k_known_nodes_closer_to_not_in n k seen = []
        · have hc : carry ≠ [] := fun hc => hemp ⟨hn, hc⟩
          obtain ⟨x, hxc, hxs⟩ := hCfresh hc
          refine ⟨x, hCU _ hxc, hxs, ?_⟩
          apply (insertAll_mem _ _ _).mpr
          right
          rw [hidsplit]
          exact List.mem_append.mpr (Or.inr hxc)
        · cases hnn : find_k_known_nodes_closer_to_not_in n k seen with
          | nil => exact absurd hnn hn
          | cons e es =>
            have hmem : e ∈ find_k_known_nodes_closer_to_not_in n k seen := by
              rw [hnn]
              exact List.mem_cons_self _ _
            refine ⟨e.node_id, hTU _ (find_k_mem_tableIds n k seen e hmem),
              (find_k_spec n k seen).2.1 e hmem, ?_⟩
            apply (insertAll_mem _ _ _).mpr
            right
            simp only [entryIds, List.cons_append, List.map_cons, List.mem_cons]
            exact Or.inl trivial
      obtain ⟨x0, hx0U, hx0s, hx0s'⟩ := hx0
      have himp : ∀ y, (fun y => decide (y ∉ insertAll seen
            (entryIds (find_k_known_nodes_closer_to_not_in n k seen ++ carry)))) y = true →
          (fun y => decide (y ∉ seen)) y = true := by
        intro y hy
        simp only [decide_eq_true_eq] at hy ⊢
        intro hys
        exact hy (hseen_sub y hys)
      have hlt := length_filter_lt U _ _ himp x0 hx0U (by simpa using hx0s)
        (by simpa using hx0s')
      have hmeas : (U.filter (fun y => decide (y ∉ insertAll seen
          (entryIds (find_k_known_nodes_closer_to_not_in n k seen ++ carry))))).length
          ≤ m := by omega
      have hseen'B : ∀ x, x ∈ insertAll seen
          (entryIds (find_k_known_nodes_closer_to_not_in n k seen ++ carry)) → x ∈ B := by
        intro x hx
        rcases (insertAll_mem _ _ _).mp hx with h | h
        · exact hSB x h
        · rw [hidsplit] at h
          rcases List.mem_append.mp h with h1 | h2
          · simp only [entryIds] at h1
            obtain ⟨e, he, heq⟩ := List.mem_map.mp h1
            rw [← heq]
            exact hTB _ (find_k_mem_tableIds n k seen e he)
          · exact hCB x h2
      cases hev : sched pos with
      | ioError => simp
      | msg s a kind =>
        have hsU : s ∈ U := by
          apply hEU pos (le_refl _) s
          rw [hev]
          exact List.mem_cons_self _ _
        have hEU' : EventsIn sched (pos + 1) U := fun j hj x hx => hEU j (by omega) x hx
        have hF' : Fresh sched (pos + 1) (B ++ eventIds (sched pos)) := Fresh_step sched pos B hF
        have hTU' : ∀ x, x ∈ tableIds (note_node n s a) → x ∈ U := by
          intro x hx
          rcases tableIds_note_node n s a x hx with h | h
          · exact h ▸ hsU
          · exact hTU x h
        have hTB' : ∀ x, x ∈ tableIds (note_node n s a) → x ∈ B ++ eventIds (sched pos) := by
          intro x hx
          rcases tableIds_note_node n s a x hx with h | h
          · subst h
            apply List.mem_append.mpr
            right
            rw [hev]
            exact List.mem_cons_self _ _
          · exact List.mem_append.mpr (Or.inl (hTB x h))
        have hSB' : ∀ x, x ∈ insertAll seen
            (entryIds (find_k_known_nodes_closer_to_not_in n k seen ++ carry)) →
            x ∈ B ++ eventIds (sched pos) :=
          fun x hx => List.mem_append.mpr (Or.inl (hseen'B x hx))
        have hnil_U : ∀ x, x ∈ entryIds ([] : List KBucketEntry) → x ∈ U := by
          intro x hx
          simp [entryIds] at hx
        have hnil_B : ∀ x, x ∈ entryIds ([] : List KBucketEntry) →
            x ∈ B ++ eventIds (sched pos) := by
          intro x hx
          simp [entryIds] at hx
        have hnil_fresh : (([] : List KBucketEntry) ≠ []) →
            ∃ x ∈ entryIds ([] : List KBucketEntry), x ∉ insertAll seen
              (entryIds (find_k_known_nodes_closer_to_not_in n k seen ++ carry)) :=
          fun hc => absurd rfl hc
        cases kind with
        | request r =>
          refine ih U k _ _ _ oldT sched (pos + 1) (B ++ eventIds (sched pos)) hmeas
            ?_ hnil_U hEU' ?_ hnil_B hSB' hF' hnil_fresh
          · rw [tableIds_handle_request]
            exact hTU'
          · rw [tableIds_handle_request]
            exact hTB'
        | response rk =>
          cases rk with
          | pong =>
            exact ih U k _ _ _ oldT sched (pos + 1) (B ++ eventIds (sched pos)) hmeas
              hTU' hnil_U hEU' hTB' hnil_B hSB' hF' hnil_fresh
          | findNode ns =>
            exact ih U k _ _ _ oldT sched (pos + 1) (B ++ eventIds (sched pos)) hmeas
              hTU' hnil_U hEU' hTB' hnil_B hSB' hF' hnil_fresh
          | findValue fvr =>
            cases fvr with
            | value key v =>
              by_cases hkey : key = k
              · simp only [hkey, ite_true]
                simp
              · simp only [hkey, ite_false]
                exact ih U k _ _ _ oldT sched (pos + 1) (B ++ eventIds (sched pos)) hmeas
                  hTU' hnil_U hEU' hTB' hnil_B hSB' hF' hnil_fresh
            | closerNodes ns =>
              have hnsU : ∀ x, x ∈ entryIds ns → x ∈ U := by
                intro x hx
                apply hEU pos (le_refl _) x
                rw [hev]
                exact List.mem_cons_of_mem _ hx
              have hnsB : ∀ x, x ∈ entryIds ns → x ∈ B ++ eventIds (sched pos) := by
                intro x hx
                apply List.mem_append.mpr
                right
                rw [hev]
                exact List.mem_cons_of_mem _ hx
              have hns_fresh : ns ≠ [] → ∃ x ∈ entryIds ns, x ∉ insertAll seen
                  (entryIds (find_k_known_nodes_closer_to_not_in n k seen ++ carry)) := by
                intro hne
                obtain ⟨x, hxns, hxB, hxr, hxs⟩ := hF pos (le_refl _) s a ns hev hne
                refine ⟨x, hxns, ?_⟩
                intro hxs'
                exact hxB (hseen'B x hxs')
              exact ih U k _ _ _ oldT sched (pos + 1) (B ++ eventIds (sched pos)) hmeas
                hTU' hnsU hEU' hTB' hnsB hSB' hF' hns_fresh

/-- C2 (amended): for every routing table and every deterministic schedule
whose events only carry ids from the finite universe U of known peers, find
terminates within |U| + 1 loop rounds PROVIDED every non-empty CloserNodes
reply carries at least one id the node could not already know (an id outside
the initial table and outside every earlier event, and not the sender of the
reply).  Without that proviso the claim is false: responders that keep
returning already-seen candidate ids refill the carryover every round and
the lookup runs forever, as the counterexample shows. -/
theorem find_terminates_in_bounded_rounds (U : List NodeId) (k : NodeId) (n : Node)
    (oldT : Option Nat) (sched : Nat → RecvEvent)
    (hT : ∀ x, x ∈ tableIds n → x ∈ U)
    (hU : EventsIn sched 0 U)
    (hF : Fresh sched 0 (tableIds n)) :
    findLoop (U.length + 1) k n [] [] oldT sched 0 ≠ none := by
  apply findLoop_terminates_aux U.length U k n [] [] oldT sched 0 (tableIds n)
  · exact le_trans (List.length_filter_le _ _) (le_refl _)
  · exact hT
  · intro x hx
    simp [entryIds] at hx
  · exact hU
  · intro x hx
    exact hx
  · intro x hx
    simp [entryIds] at hx
  · intro x hx
    simp at hx
  · exact hF
  · intro hc
    exact absurd rfl hc

set_option maxRecDepth 1000000 in
/-- Witness for find_terminates_in_bounded_rounds: the node knows only peer
A, the universe is [A], and A always answers Pong (so no CloserNodes reply
ever arrives and freshness holds vacuously); the lookup finishes within
1 + 1 = 2 rounds. -/
theorem find_terminates_in_bounded_rounds_witness :
    (∀ x, x ∈ tableIds cNodeA → x ∈ [aId]) ∧
    EventsIn schedPong 0 [aId] ∧
    Fresh schedPong 0 (tableIds cNodeA) ∧
    findLoop (([aId] : List NodeId).length + 1) tId cNodeA [] [] (some 4) schedPong 0
      ≠ none := by
  have hT : ∀ x, x ∈ tableIds cNodeA → x ∈ [aId] := by decide
  have hU : EventsIn schedPong 0 [aId] := by
    intro j hj x hx
    simp only [schedPong, eventIds, kindCloserIds] at hx
    simpa using hx
  have hF : Fresh schedPong 0 (tableIds cNodeA) := by
    intro j hj s a ns heq
    simp [schedPong] at heq
  exact ⟨hT, hU, hF,
    find_terminates_in_bounded_rounds [aId] tId cNodeA (some 4) schedPong hT hU hF⟩

set_option maxRecDepth 1000000 in
/-- C2 counterexample: the node knows exactly one peer A, so the claimed
bound is |known peers| + 1 = 2 rounds; A is a deterministic responder that
answers every FindValue with CloserNodes [A], an id it knows.  After 2
rounds the loop is still running, and still after 5: from round two on the
frontier closest_k(k, seen) is empty but the carryover is refilled with the
already-seen A every round, so find never terminates. -/
theorem find_adversarial_runs_forever_cex :
    findLoop 2 tId cNodeA [] [] (some 3) schedAdv 0 = none ∧
    findLoop 5 tId cNodeA [] [] (some 3) schedAdv 0 = none :=
  ⟨by decide, by decide⟩

end Kademlia
